import Mathlib

/-!
Verification development for the PDF line-item extraction engine
(`src/main.py` of pdf2csv-render).

A document, after the external text extraction, is a list of pages, each a
list of normalized text lines.  We embed lines as `List Char` and translate
the classifier regexes of `main.py` into executable character-list matchers.
Python's `\d` and `\w` are modelled on the character repertoire the program
actually handles (ASCII digits, ASCII letters, Cyrillic letters, underscore);
Python's `\s` is modelled by the ASCII whitespace characters plus U+00A0,
which are the whitespace forms that survive the PDF text extraction.
-/

namespace PdfCsv

abbrev Line := List Char

/-- Whitespace as used by `normalize_space` / `str.strip` (Python `\s`,
restricted to ASCII whitespace plus the no-break space). -/
def isWsChar (c : Char) : Bool :=
  c = ' ' || c = '\t' || c = '\n' || c = '\r' || c = '\x0b' || c = '\x0c' || c = '\u00A0'

/-- Python `str.lower` on the alphabets occurring in the program:
ASCII A-Z, Cyrillic А-Я and Ё. -/
def pyLower (c : Char) : Char :=
  if 65 ≤ c.toNat ∧ c.toNat ≤ 90 then Char.ofNat (c.toNat + 32)
  else if 1040 ≤ c.toNat ∧ c.toNat ≤ 1071 then Char.ofNat (c.toNat + 32)
  else if c = 'Ё' then 'ё'
  else c

/-- Python `\w` (word character) on the same repertoire: digits, ASCII
letters, Cyrillic letters, underscore. -/
def isWordChar (c : Char) : Bool :=
  c.isDigit || c.isAlpha || (1040 ≤ c.toNat && c.toNat ≤ 1103) || c = 'ё' || c = 'Ё' || c = '_'

/-- The size-separator set `[xх×]` of `RX_SIZE` / `RX_DIMS_ANYWHERE`,
case-insensitive (Latin x, Cyrillic х, multiplication sign). -/
def isSepX (c : Char) : Bool :=
  pyLower c = 'x' || pyLower c = 'х' || c = '×'

/-- Python `str.strip()`. -/
def pyStrip (l : Line) : Line :=
  ((l.dropWhile isWsChar).reverse.dropWhile isWsChar).reverse

/-- Collapse every maximal whitespace run to a single space
(the `re.sub(r"\s+", " ", ·)` step; the flag records whether the previous
character belonged to a run already emitted as a space). -/
def collapseWsGo : Bool → Line → Line
  | _, [] => []
  | prevWs, c :: rest =>
    if isWsChar c then
      if prevWs then collapseWsGo true rest else ' ' :: collapseWsGo true rest
    else c :: collapseWsGo false rest

/-- Model of `normalize_space` of main.py: fold NBSP to space, collapse whitespace
runs, strip.  (Folding NBSP first and collapsing `\s+` is the same as
collapsing all whitespace runs, NBSP included, to a single space.) -/
def normalize_space (l : Line) : Line := pyStrip (collapseWsGo false l)

def pyLowerL (l : Line) : Line := l.map pyLower

/-- Value of `int(...)` on a digit string. -/
def natVal (l : Line) : Nat := l.foldl (fun n c => n * 10 + (c.toNat - 48)) 0

/-- Match `RX_INT.fullmatch`: a line consisting solely of digits. -/
def isIntLine (l : Line) : Bool := !l.isEmpty && l.all Char.isDigit

/-- Match `RX_ANY_RUB.search`: the line contains the currency symbol. -/
def anyRub (l : Line) : Bool := l.contains '₽'

/-- Tail of the money regex after optional decimals: `\s*₽$`. -/
def rubEnd (l : Line) : Bool := l.dropWhile isWsChar == ['₽']

/-- Money regex after the thousands groups: `(?:[.,]\d+)?\s*₽$`. -/
def moneyDec (l : Line) : Bool :=
  match l with
  | c :: d :: rest =>
    if (c = '.' || c = ',') && d.isDigit then rubEnd ((d :: rest).dropWhile Char.isDigit)
    else rubEnd (c :: d :: rest)
  | _ => rubEnd l

/-- Money regex after the leading digits: `(?:[  ]\d{3})*` then
`moneyDec`.  A separator followed by three digits is always consumed
greedily; skipping such a group can never make the whole match succeed
because `\s*₽` would then have to start on a digit. -/
def moneyGroups : Line → Bool
  | sep :: a :: b :: c :: rest =>
    if (sep = ' ' || sep = '\u00A0') && a.isDigit && b.isDigit && c.isDigit then
      moneyGroups rest
    else moneyDec (sep :: a :: b :: c :: rest)
  | l => moneyDec l

/-- Match `RX_MONEY_LINE.fullmatch`: `^\d+(?:[  ]\d{3})*(?:[.,]\d+)?\s*₽$`. -/
def isMoneyLine (l : Line) : Bool :=
  let p := l.span Char.isDigit
  !p.1.isEmpty && moneyGroups p.2

/-- Substring test (Python `sub in s`). -/
def hasSub (pat : Line) : Line → Bool
  | [] => pat.isEmpty
  | c :: rest => List.isPrefixOf pat (c :: rest) || hasSub pat rest

/-- Noise classifier `is_noise` of main.py. -/
def is_noise (l : Line) : Bool :=
  let low := pyLowerL (pyStrip l)
  low.isEmpty
  || List.isPrefixOf "страница:".data low
  || List.isPrefixOf "ваш проект".data low
  || hasSub "проект создан".data low
  || hasSub "развертка стены".data low
  || hasSub "стоимость проекта".data low

/-- Totals-block classifier `is_totals_block` of main.py. -/
def is_totals_block (l : Line) : Bool :=
  let low := pyLowerL (pyStrip l)
  List.isPrefixOf "общий вес".data low
  || List.isPrefixOf "максимальный габарит заказа".data low
  || List.isPrefixOf "адрес:".data low
  || List.isPrefixOf "телефон:".data low
  || List.isPrefixOf "email".data low

/-- Bare-total classifier `is_project_total_only`: `re.fullmatch(r"\d+\s*₽", normalize_space(line))`. -/
def is_project_total_only (l : Line) : Bool :=
  let n := normalize_space l
  let p := n.span Char.isDigit
  !p.1.isEmpty && rubEnd p.2

/-- Header-token classifier `is_header_token` of main.py: normalized, lowered, dashes unified,
membership in the fixed column-header set. -/
def is_header_token (l : Line) : Bool :=
  let low := (pyLowerL (normalize_space l)).map (fun c => if c = '–' || c = '—' then '-' else c)
  low == "фото".data || low == "товар".data || low == "габариты".data
  || low == "вес".data || low == "цена за шт".data || low == "кол-во".data
  || low == "сумма".data

/-- Word-boundary test for a match that starts on a digit: the preceding
character (if any) must not be a word character. -/
def boundaryOk (prev : Option Char) : Bool :=
  match prev with
  | none => true
  | some c => !isWordChar c

/-- Generic regex `search`: try the matcher at every position whose
left context satisfies the word boundary. -/
def wSearch (matchAt : Line → Bool) (prev : Option Char) : Line → Bool
  | [] => boundaryOk prev && matchAt []
  | c :: rest => (boundaryOk prev && matchAt (c :: rest)) || wSearch matchAt (some c) rest

/-- Matcher for `RX_WEIGHT` at one position: `\d+(?:[.,]\d+)?\s*кг\.?\b`.
The final `\.?\b` reduces to: the character after `кг` is absent or not a
word character (a following dot is itself a non-word character, and the
dot-consuming alternative only succeeds when a word character follows the
dot, in which case the boundary already held before the dot). -/
def weightAt (l : Line) : Bool :=
  let p := l.span Char.isDigit
  if p.1.isEmpty then false
  else
    let r2 :=
      match p.2 with
      | c :: d :: rest =>
        if (c = '.' || c = ',') && d.isDigit then (d :: rest).dropWhile Char.isDigit
        else p.2
      | _ => p.2
    match r2.dropWhile isWsChar with
    | k :: g :: rest =>
      pyLower k = 'к' && pyLower g = 'г'
      && (match rest with | [] => true | c :: _ => !isWordChar c)
    | _ => false

/-- Search for `RX_WEIGHT` (matches start on a digit, so the boundary is a
non-word left context). -/
def looksWeight (l : Line) : Bool := wSearch weightAt none l

/-- Matcher for `RX_SIZE` at one position:
`\b\d{2,}[xх×]\d{2,}(?:[xх×]\d{1,})?\b`.  If the optional third group
matches but the closing boundary fails, the regex backtracks to the
group-less form, whose boundary sits on the separator (true only for the
non-word separator `×`). -/
def sizeAt (l : Line) : Bool :=
  let p := l.span Char.isDigit
  if p.1.length < 2 then false
  else
    match p.2 with
    | sep :: r2 =>
      if !isSepX sep then false
      else
        let q := r2.span Char.isDigit
        if q.1.length < 2 then false
        else
          match q.2 with
          | sep2 :: r4 =>
            if isSepX sep2 then
              let d3 := r4.span Char.isDigit
              if d3.1.isEmpty then !isWordChar sep2
              else
                (match d3.2 with | [] => true | c :: _ => !isWordChar c) || !isWordChar sep2
            else !isWordChar sep2
          | [] => true
    | [] => false

/-- Search for `RX_SIZE`. -/
def looksSize (l : Line) : Bool := wSearch sizeAt none l

/-- Search for `RX_MM`: the line contains `мм` (case-insensitive). -/
def hasMM : Line → Bool
  | a :: b :: rest => (pyLower a = 'м' && pyLower b = 'м') || hasMM (b :: rest)
  | _ => false

/-- Dimension/weight classifier `looks_like_dim_or_weight` of main.py. -/
def looks_like_dim_or_weight (l : Line) : Bool :=
  looksWeight l || (looksSize l && hasMM l)

/-- Money-or-quantity classifier `looks_like_money_or_qty` of main.py. -/
def looks_like_money_or_qty (l : Line) : Bool :=
  isMoneyLine l || isIntLine l

/-- Attempt to match `RX_DIMS_ANYWHERE`
(`\s*\d{1,4}[xх×]\d{1,4}(?:[xх×]\d{1,5})?\s*мм\.?\s*`) at one position,
returning the remainder after the match.  The bounded digit counters admit
no effective backtracking: a shorter digit take always leaves a digit in a
position where only a separator, whitespace or `м` could continue the
match, so each digit run must be taken whole and fit the counter. -/
def tryDims (l : Line) : Option Line :=
  let l1 := l.dropWhile isWsChar
  let p := l1.span Char.isDigit
  if p.1.isEmpty || p.1.length > 4 then none
  else
    match p.2 with
    | sep :: r2 =>
      if !isSepX sep then none
      else
        let q := r2.span Char.isDigit
        if q.1.isEmpty || q.1.length > 4 then none
        else
          let r4opt : Option Line :=
            match q.2 with
            | sep2 :: r5 =>
              if isSepX sep2 then
                let d3 := r5.span Char.isDigit
                if d3.1.isEmpty then some q.2
                else if d3.1.length ≤ 5 then some d3.2
                else none
              else some q.2
            | [] => some q.2
          match r4opt with
          | none => none
          | some r4 =>
            match r4.dropWhile isWsChar with
            | m1 :: m2 :: r6 =>
              if pyLower m1 = 'м' && pyLower m2 = 'м' then
                match r6 with
                | '.' :: r7 => some (r7.dropWhile isWsChar)
                | _ => some (r6.dropWhile isWsChar)
              else none
            | _ => none
    | [] => none

/-- Scan of `RX_DIMS_ANYWHERE.sub(" ", ·)`: at each position, replace a
match by a single space and continue after it, otherwise keep the
character.  Fuel is the length of the list; every step consumes at least
one character, so the fuel never runs out. -/
def dimsSubGo : Nat → Line → Line
  | 0, l => l
  | _ + 1, [] => []
  | f + 1, c :: rest =>
    match tryDims (c :: rest) with
    | some r => ' ' :: dimsSubGo f r
    | none => c :: dimsSubGo f rest

/-- Replacement `RX_DIMS_ANYWHERE.sub(" ", ·)`. -/
def dimsSub (l : Line) : Line := dimsSubGo l.length l

/-- Model of `strip_dims_anywhere` of main.py. -/
def strip_dims_anywhere (l : Line) : Line :=
  normalize_space (dimsSub (normalize_space l))

/-- Model of `normalize_key` of main.py: normalize, lower, unify the
multiplication glyphs to `x`, strip dimension fragments, normalize. -/
def normalize_key (l : Line) : Line :=
  let s := (pyLowerL (normalize_space l)).map (fun c => if c = '×' || c = 'х' then 'x' else c)
  normalize_space (dimsSub s)

/-- Drop of a leading column label: `re.sub(r"^Фото\s*", "", ·)` (and the
same for `Товар`), case-insensitive, eating the whitespace after it. -/
def stripLabel (label : Line) (s : Line) : Line :=
  if (s.take label.length).map pyLower == label then (s.drop label.length).dropWhile isWsChar
  else s

/-- Filter predicate of `clean_name_from_buffer`: lines discarded from the
buffer before the name is assembled. -/
def bufDiscard (l : Line) : Bool :=
  is_noise l || is_header_token l || is_totals_block l || is_project_total_only l

/-- Tail-strip predicate of `clean_name_from_buffer`: trailing
dimension/weight or money/integer lines are popped. -/
def bufTailJunk (l : Line) : Bool :=
  looks_like_dim_or_weight l || looks_like_money_or_qty l

/-- Model of `clean_name_from_buffer` of main.py. -/
def clean_name_from_buffer (buf : List Line) : Line :=
  let filtered := buf.filter (fun ln => !bufDiscard ln)
  let trimmed := (filtered.reverse.dropWhile bufTailJunk).reverse
  let name := normalize_space (List.intercalate [' '] trimmed)
  let name1 := pyStrip (stripLabel "фото".data name)
  let name2 := pyStrip (stripLabel "товар".data name1)
  strip_dims_anywhere name2

/-- Insertion-ordered accumulation of `ordered[name] = ordered.get(name, 0) + qty`
on the `OrderedDict`, modelled as an association list: an existing key is
updated in place, a new key is appended. -/
def addQty : List (Line × Nat) → Line → Nat → List (Line × Nat)
  | [], k, q => [(k, q)]
  | (k', q') :: t, k, q => if k' = k then (k', q' + q) :: t else (k', q') :: addQty t k q

/-- Parser state of `parse_items`: the `OrderedDict`, the name buffer and
the `in_totals` flag, plus (as a proof-only trace, invisible to the
algorithm) the sequence of records emitted so far. -/
structure PState where
  ordered : List (Line × Nat)
  buf : List Line
  in_totals : Bool
  emitted : List (Line × Nat)
  deriving Repr, DecidableEq

def initState : PState := ⟨[], [], false, []⟩

/-- Quantity search of the anchor window: the first line of the window that
is an integer line whose value lies in `[1, 500]`, returned with its index
and value (the code records the index and re-parses the same line). -/
def qtyFind : List Line → Option (Nat × Nat)
  | [] => none
  | l :: ls =>
    if isIntLine l && decide (1 ≤ natVal l) && decide (natVal l ≤ 500) then some (0, natVal l)
    else (qtyFind ls).map (fun p => (p.1 + 1, p.2))

/-- Index of the first line satisfying the closing-anchor test. -/
def sumScan : List Line → Option Nat
  | [] => none
  | l :: ls =>
    if isMoneyLine l || anyRub l then some 0
    else (sumScan ls).map (· + 1)

/-- Closing-anchor search: the first money/currency line of the window
strictly after the quantity index `qi`. -/
def sumFind (w : List Line) (qi : Nat) : Option Nat :=
  (sumScan (w.drop (qi + 1))).map (fun r => qi + 1 + r)

/-- One iteration of the scan loop of `parse_items` at line `line`, with
`rest` the remaining lines of the page.  Returns the lines still to be
scanned and the new state.  The branch order is exactly that of the code:
noise/header skip, totals trigger, in-totals skip, money anchor
(lookahead window of the next nine lines), plain-text buffering. -/
def scanStep (line : Line) (rest : List Line) (s : PState) : List Line × PState :=
  if is_noise line || is_header_token line then (rest, s)
  else if is_project_total_only line || is_totals_block line then
    (rest, { s with in_totals := true, buf := [] })
  else if s.in_totals then (rest, s)
  else if isMoneyLine line then
    match qtyFind (rest.take 9) with
    | none => (rest, { s with buf := s.buf ++ [line] })
    | some (qi, qv) =>
      match sumFind (rest.take 9) qi with
      | none => (rest, { s with buf := s.buf ++ [line] })
      | some si =>
        let name := clean_name_from_buffer s.buf
        if name = [] then (rest.drop (si + 1), { s with buf := [] })
        else
          (rest.drop (si + 1),
           { s with buf := [],
                    ordered := addQty s.ordered name qv,
                    emitted := s.emitted ++ [(name, qv)] })
  else (rest, { s with buf := s.buf ++ [line] })

/-- The scan loop, fuelled: one unit of fuel per iteration.  Every
iteration consumes at least one line, so `lines.length` units suffice
(proved below). -/
def scanF : Nat → List Line → PState → PState
  | 0, _, s => s
  | _ + 1, [], s => s
  | f + 1, line :: rest, s =>
    let pr := scanStep line rest s
    scanF f pr.1 pr.2

/-- Scan of one page of the document. -/
def scanPage (lines : List Line) (s : PState) : PState := scanF lines.length lines s

/-- Scan of the remaining pages; the state (buffer, totals flag, ordered
map) deliberately persists across page boundaries. -/
def runPages : List (List Line) → PState → PState
  | [], s => s
  | pg :: pgs, s => runPages pgs (scanPage pg s)

/-- Model of `parse_items` of main.py on the extracted pages of lines:
the final insertion-ordered list of (name, summed quantity) records. -/
def parse_items (pages : List (List Line)) : List (Line × Nat) :=
  (runPages pages initState).ordered

/-- Trace of the records emitted by the anchor scan, before aggregation. -/
def emitsOf (pages : List (List Line)) : List (Line × Nat) :=
  (runPages pages initState).emitted

/-- Fold of `addQty` over an emission sequence, starting from a map `m`. -/
def aggOnto (m : List (Line × Nat)) (es : List (Line × Nat)) : List (Line × Nat) :=
  es.foldl (fun m e => addQty m e.1 e.2) m

/-- Sum of the quantities emitted for one key. -/
def sumQty : List (Line × Nat) → Line → Nat
  | [], _ => 0
  | e :: es, k => (if e.1 = k then e.2 else 0) + sumQty es k

/-- Order-preserving deduplication: keep the first occurrence of each key
not already in `seen`. -/
def dedupAux (seen : List Line) : List Line → List Line
  | [] => []
  | k :: ks => if k ∈ seen then dedupAux seen ks else k :: dedupAux (seen ++ [k]) ks

/-- Association-list lookup (first hit). -/
def lookupQ : List (Line × Nat) → Line → Option Nat
  | [], _ => none
  | (k', v) :: t, k => if k' = k then some v else lookupQ t k

/-- Outcome of opening the external catalog spreadsheet `Art.xlsx`, as
`load_article_map` distinguishes the cases: openpyxl missing, file
absent, `load_workbook` raising, or a readable sheet (header cells plus
data rows; an absent/`None`/empty cell is the empty string, which Python
treats as falsy). -/
inductive XlsxSrc where
  | noOpenpyxl : XlsxSrc
  | fileNotFound (path : Line) : XlsxSrc
  | cannotOpen (err : Line) : XlsxSrc
  | sheet (header : List Line) (rows : List (List Line)) : XlsxSrc

/-- Dictionary write `m[key] = val`: overwrite an existing key in place,
append a new one. -/
def putA : List (Line × Line) → Line → Line → List (Line × Line)
  | [], k, v => [(k, v)]
  | (k', v') :: t, k, v => if k' = k then (k, v) :: t else (k', v') :: putA t k v

/-- Association-list lookup for the article map. -/
def lookupA : List (Line × Line) → Line → Option Line
  | [], _ => none
  | (k', v) :: t, k => if k' = k then some v else lookupA t k

/-- Column search of `load_article_map`: the loop keeps overwriting the
column index, so the last header cell matching the label wins; `idx` is
the 1-based position of the head of the remaining list. -/
def lastCol (label : Line) : Nat → Nat → List Line → Nat
  | _, cur, [] => cur
  | idx, cur, h :: rest =>
    lastCol label (idx + 1) (if pyLowerL h = label then idx else cur) rest

/-- Cell access `ws.cell(r, c)` with a 1-based column index; out-of-range
is the empty (falsy) cell. -/
def cellAt (r : List Line) (c : Nat) : Line := r.getD (c - 1) []

/-- Row loop of `load_article_map`: skip rows with a falsy product or
article cell, otherwise store `m[normalize_key(товар)] = артикул`. -/
def buildArtMap (tcol acol : Nat) : List (List Line) → List (Line × Line) → List (Line × Line)
  | [], m => m
  | r :: rs, m =>
    let t := cellAt r tcol
    let a := cellAt r acol
    if t.isEmpty || a.isEmpty then buildArtMap tcol acol rs m
    else
      let ts := normalize_space t
      let as' := normalize_space a
      if ts.isEmpty || as'.isEmpty then buildArtMap tcol acol rs m
      else buildArtMap tcol acol rs (putA m (normalize_key ts) as')

/-- Model of `load_article_map` of main.py: every failure to reach the
sheet returns the empty map together with a status string instead of
raising; a readable sheet is folded into the article map. -/
def load_article_map : XlsxSrc → List (Line × Line) × Line
  | .noOpenpyxl => ([], "openpyxl_not_installed".data)
  | .fileNotFound p => ([], "file_not_found:".data ++ p)
  | .cannotOpen e => ([], "cannot_open:".data ++ e)
  | .sheet header rows =>
    let hdr := header.map normalize_space
    let tcol := lastCol "товар".data 1 1 hdr
    let acol := lastCol "артикул".data 1 2 hdr
    (buildArtMap tcol acol rows [], "ok".data)

/-- Data rows written by `make_csv_excel_friendly` (after the fixed header
row): article looked up by normalized key with `""` as default, the raw
name, the quantity, and the constant `CATEGORY_VALUE = 2`. -/
def csv_rows (rows : List (Line × Nat)) (amap : List (Line × Line)) :
    List (Line × Line × Nat × Nat) :=
  rows.map (fun nq => ((lookupA amap (normalize_key nq.1)).getD [], nq.1, nq.2, 2))

/-- Decision of the `/extract` route after `parse_items` succeeds: an
empty record list raises HTTP 422, otherwise the CSV built from the rows
and the article map is returned. -/
def extract_route (pages : List (List Line)) (amap : List (Line × Line)) :
    Except Nat (List (Line × Line × Nat × Nat)) :=
  if parse_items pages = [] then .error 422
  else .ok (csv_rows (parse_items pages) amap)

/-- Quantity stored for a key, zero if absent. -/
def getQ (m : List (Line × Nat)) (k : Line) : Nat := (lookupQ m k).getD 0

/-- Invariant tying the ordered map to the emission trace. -/
def OrderedIsAgg (s : PState) : Prop := s.ordered = aggOnto [] s.emitted

/-- Condition under which the scan simply buffers a line: none of the
skip/totals classifiers fires and the line is not a money line. -/
def PlainLine (l : Line) : Prop :=
  is_noise l = false ∧ is_header_token l = false ∧ is_project_total_only l = false ∧
    is_totals_block l = false ∧ isMoneyLine l = false

instance (l : Line) : Decidable (PlainLine l) := by
  unfold PlainLine
  infer_instance

/-- Invariant: every emitted quantity lies in the plausible range. -/
def EmittedBounded (s : PState) : Prop := ∀ e ∈ s.emitted, 1 ≤ e.2 ∧ e.2 ≤ 500

/-! Concrete documents used to instantiate the theorems. -/

/-- The spec's concrete scenario, with the dimension unit written with the
Latin letters `mm`, exactly as the scenario states it. -/
def c3LatinDoc : List (List Line) :=
  [["Widget Model A".data, "24x10x5 mm".data, "25.00 ₽".data, "3".data, "75 ₽".data]]

/-- The same scenario with the Cyrillic unit `мм` that the program's
dimension grammar recognizes. -/
def c3CyrillicDoc : List (List Line) :=
  [["Widget Model A".data, "24x10x5 мм".data, "25.00 ₽".data, "3".data, "75 ₽".data]]

/-- The repeated-block scenario: the same record block once per page. -/
def widgetPages : List (List Line) :=
  [["Widget Model A".data, "25.00 ₽".data, "3".data, "75 ₽".data],
   ["Widget Model A".data, "25.00 ₽".data, "3".data, "75 ₽".data]]

/-- A document whose two anchors for the same name carry quantity 300
each, so aggregation sums to 600. -/
def doubledQtyDoc : List (List Line) :=
  [["A".data, "10,00 ₽".data, "300".data, "1 ₽".data,
    "A".data, "10,00 ₽".data, "300".data, "1 ₽".data]]

/-! Basic facts about the scan loop. -/

theorem scanF_nil (f : Nat) (s : PState) : scanF f [] s = s := by
  cases f <;> rfl

theorem scanF_cons (f : Nat) (line : Line) (rest : List Line) (s : PState) :
    scanF (f + 1) (line :: rest) s = scanF f (scanStep line rest s).1 (scanStep line rest s).2 :=
  rfl

theorem scanStep_fst_length (line : Line) (rest : List Line) (s : PState) :
    ((scanStep line rest s).1).length ≤ rest.length := by
  unfold scanStep
  split
  · simp
  split
  · simp
  split
  · simp
  split
  · split
    · simp
    · split
      · simp
      · dsimp only
        split <;> simp [List.length_drop]
  · simp

theorem sumFind_gt (w : List Line) (qi si : Nat) (h : sumFind w qi = some si) :
    qi + 1 ≤ si := by
  unfold sumFind at h
  rcases Option.map_eq_some'.mp h with ⟨r, _, hr⟩
  omega

theorem qtyFind_bounds (w : List Line) (qi qv : Nat) (h : qtyFind w = some (qi, qv)) :
    1 ≤ qv ∧ qv ≤ 500 := by
  induction w generalizing qi qv with
  | nil => simp [qtyFind] at h
  | cons l ls ih =>
    unfold qtyFind at h
    split at h
    · rename_i hc
      simp only [Bool.and_eq_true, decide_eq_true_eq] at hc
      cases h
      exact ⟨hc.1.2, hc.2⟩
    · rcases Option.map_eq_some'.mp h with ⟨⟨qi', qv'⟩, hq, he⟩
      cases he
      exact ih _ _ hq

/-- Fuel adequacy: the scan is fully determined by at most one fuel unit
per remaining line, because every iteration consumes at least one line. -/
theorem scanF_stable : ∀ f (l : List Line) (s : PState), l.length ≤ f →
    scanF f l s = scanF l.length l s := by
  intro f
  induction f using Nat.strong_induction_on with
  | _ f ih =>
    intro l s hl
    match f, l with
    | f, [] => rw [scanF_nil, scanF_nil]
    | 0, a :: r => simp at hl
    | f + 1, a :: r =>
      have hlen : ((scanStep a r s).1).length ≤ r.length := scanStep_fst_length a r s
      have hr : r.length + 1 ≤ f + 1 := by simpa using hl
      have h1 := ih f (by omega) (scanStep a r s).1 (scanStep a r s).2 (by omega)
      have h2 := ih r.length (by omega) (scanStep a r s).1 (scanStep a r s).2 hlen
      rw [scanF_cons, h1, show (a :: r).length = r.length + 1 from rfl, scanF_cons, h2]

/-! Invariant preservation through the scan. -/

theorem scanF_pres (P : PState → Prop)
    (hP : ∀ line rest s, P s → P (scanStep line rest s).2) :
    ∀ f (l : List Line) (s : PState), P s → P (scanF f l s) := by
  intro f
  induction f with
  | zero => intro l s h; exact h
  | succ f ih =>
    intro l s h
    cases l with
    | nil => exact h
    | cons a r => exact ih _ _ (hP a r s h)

theorem runPages_pres (P : PState → Prop)
    (hP : ∀ line rest s, P s → P (scanStep line rest s).2) :
    ∀ (pgs : List (List Line)) (s : PState), P s → P (runPages pgs s) := by
  intro pgs
  induction pgs with
  | nil => intro s h; exact h
  | cons pg pgs ih => intro s h; exact ih _ (scanF_pres P hP _ _ _ h)

/-! Once `in_totals` is set, the scan changes neither the ordered map nor
the emission trace, and the flag never resets. -/

theorem scanStep_totals (line : Line) (rest : List Line) (s : PState)
    (h : s.in_totals = true) :
    (scanStep line rest s).2.ordered = s.ordered ∧
    (scanStep line rest s).2.emitted = s.emitted ∧
    (scanStep line rest s).2.in_totals = true := by
  unfold scanStep
  split
  · exact ⟨rfl, rfl, h⟩
  · split
    · exact ⟨rfl, rfl, rfl⟩
    · exact ⟨rfl, rfl, h⟩

theorem scanF_totals (f : Nat) (l : List Line) (s : PState) (h : s.in_totals = true) :
    (scanF f l s).ordered = s.ordered ∧
    (scanF f l s).emitted = s.emitted ∧
    (scanF f l s).in_totals = true := by
  induction f generalizing l s with
  | zero => exact ⟨rfl, rfl, h⟩
  | succ f ih =>
    cases l with
    | nil => exact ⟨rfl, rfl, h⟩
    | cons a r =>
      rw [scanF_cons]
      obtain ⟨h1, h2, h3⟩ := scanStep_totals a r s h
      obtain ⟨g1, g2, g3⟩ := ih (scanStep a r s).1 (scanStep a r s).2 h3
      exact ⟨g1.trans h1, g2.trans h2, g3⟩

theorem runPages_totals (pgs : List (List Line)) (s : PState) (h : s.in_totals = true) :
    (runPages pgs s).ordered = s.ordered ∧
    (runPages pgs s).emitted = s.emitted ∧
    (runPages pgs s).in_totals = true := by
  induction pgs generalizing s with
  | nil => exact ⟨rfl, rfl, h⟩
  | cons pg pgs ih =>
    obtain ⟨h1, h2, h3⟩ := scanF_totals pg.length pg s h
    obtain ⟨g1, g2, g3⟩ := ih (scanPage pg s) h3
    exact ⟨g1.trans h1, g2.trans h2, g3⟩

/-! Facts about the insertion-ordered aggregation. -/

theorem addQty_keys (m : List (Line × Nat)) (k : Line) (q : Nat) :
    (addQty m k q).map Prod.fst =
      if k ∈ m.map Prod.fst then m.map Prod.fst else m.map Prod.fst ++ [k] := by
  induction m with
  | nil => simp [addQty]
  | cons e t ih =>
    obtain ⟨k', q'⟩ := e
    by_cases hk : k' = k
    · subst hk
      simp [addQty]
    · simp only [addQty, if_neg hk, List.map_cons]
      rw [ih]
      by_cases hmem : k ∈ t.map Prod.fst
      · simp [hmem, Ne.symm hk]
      · simp [hmem, Ne.symm hk]

theorem getQ_addQty_self (m : List (Line × Nat)) (k : Line) (q : Nat) :
    getQ (addQty m k q) k = getQ m k + q := by
  induction m with
  | nil => simp [addQty, getQ, lookupQ]
  | cons e t ih =>
    obtain ⟨k', q'⟩ := e
    by_cases hk : k' = k
    · subst hk
      simp [addQty, getQ, lookupQ, Nat.add_comm]
    · simp only [addQty, if_neg hk]
      show getQ ((k', q') :: addQty t k q) k = getQ ((k', q') :: t) k + q
      simp only [getQ, lookupQ, if_neg hk]
      exact ih

theorem getQ_addQty_ne (m : List (Line × Nat)) (k k' : Line) (q : Nat) (h : k ≠ k') :
    getQ (addQty m k q) k' = getQ m k' := by
  induction m with
  | nil => simp [addQty, getQ, lookupQ, h]
  | cons e t ih =>
    obtain ⟨k'', q''⟩ := e
    by_cases hk : k'' = k
    · subst hk
      simp [addQty, getQ, lookupQ, h]
    · simp only [addQty, if_neg hk]
      by_cases hk' : k'' = k'
      · simp [getQ, lookupQ, hk']
      · show getQ ((k'', q'') :: addQty t k q) k' = getQ ((k'', q'') :: t) k'
        simp only [getQ, lookupQ, if_neg hk']
        exact ih

theorem addQty_nodup (m : List (Line × Nat)) (k : Line) (q : Nat)
    (h : (m.map Prod.fst).Nodup) : ((addQty m k q).map Prod.fst).Nodup := by
  rw [addQty_keys]
  by_cases hmem : k ∈ m.map Prod.fst
  · simpa [hmem] using h
  · rw [if_neg hmem]
    refine List.Nodup.append h (List.nodup_singleton _) ?_
    simp [List.disjoint_singleton, hmem]

theorem aggOnto_cons (m : List (Line × Nat)) (e : Line × Nat) (es : List (Line × Nat)) :
    aggOnto m (e :: es) = aggOnto (addQty m e.1 e.2) es := rfl

theorem aggOnto_append_single (m : List (Line × Nat)) (es : List (Line × Nat)) (e : Line × Nat) :
    aggOnto m (es ++ [e]) = addQty (aggOnto m es) e.1 e.2 := by
  simp [aggOnto, List.foldl_append]

theorem aggOnto_keys (es : List (Line × Nat)) : ∀ m : List (Line × Nat),
    (aggOnto m es).map Prod.fst =
      m.map Prod.fst ++ dedupAux (m.map Prod.fst) (es.map Prod.fst) := by
  induction es with
  | nil => intro m; simp [aggOnto, dedupAux]
  | cons e es ih =>
    intro m
    rw [aggOnto_cons, ih]
    by_cases hmem : e.1 ∈ m.map Prod.fst
    · rw [addQty_keys, if_pos hmem]
      simp [dedupAux, hmem]
    · rw [addQty_keys, if_neg hmem]
      simp [dedupAux, hmem]

theorem aggOnto_getQ (es : List (Line × Nat)) : ∀ (m : List (Line × Nat)) (k : Line),
    getQ (aggOnto m es) k = getQ m k + sumQty es k := by
  induction es with
  | nil => intro m k; simp [aggOnto, sumQty]
  | cons e es ih =>
    intro m k
    rw [aggOnto_cons, ih]
    by_cases hk : e.1 = k
    · subst hk
      rw [getQ_addQty_self]
      simp [sumQty]
      omega
    · rw [getQ_addQty_ne _ _ _ _ hk]
      simp [sumQty, hk]

theorem aggOnto_nodup (es : List (Line × Nat)) : ∀ m : List (Line × Nat),
    (m.map Prod.fst).Nodup → ((aggOnto m es).map Prod.fst).Nodup := by
  induction es with
  | nil => intro m h; exact h
  | cons e es ih => intro m h; exact ih _ (addQty_nodup _ _ _ h)

theorem lookupQ_of_mem (m : List (Line × Nat)) (k : Line) (v : Nat)
    (hmem : (k, v) ∈ m) (hnd : (m.map Prod.fst).Nodup) : lookupQ m k = some v := by
  induction m with
  | nil => simp at hmem
  | cons e t ih =>
    obtain ⟨k', v'⟩ := e
    rcases List.mem_cons.mp hmem with heq | htail
    · cases heq
      simp [lookupQ]
    · have hk : k' ≠ k := by
        intro he
        subst he
        exact (List.nodup_cons.mp hnd).1 (List.mem_map.mpr ⟨(k', v), htail, rfl⟩)
      simp only [lookupQ, if_neg hk]
      exact ih htail (List.nodup_cons.mp hnd).2

theorem dedupAux_subset (l : List Line) : ∀ (seen : List Line) (x : Line),
    x ∈ dedupAux seen l → x ∈ l := by
  induction l with
  | nil => intro seen x h; simp [dedupAux] at h
  | cons k ks ih =>
    intro seen x h
    simp only [dedupAux] at h
    split at h
    · exact List.mem_cons_of_mem _ (ih _ _ h)
    · rcases List.mem_cons.mp h with rfl | h'
      · exact List.mem_cons_self _ _
      · exact List.mem_cons_of_mem _ (ih _ _ h')

/-! The ordered map is always the aggregation of the emission trace. -/

theorem scanStep_agg (line : Line) (rest : List Line) (s : PState)
    (h : OrderedIsAgg s) : OrderedIsAgg (scanStep line rest s).2 := by
  unfold scanStep
  split
  · exact h
  split
  · exact h
  split
  · exact h
  split
  · split
    · exact h
    · split
      · exact h
      · dsimp only
        split
        · exact h
        · unfold OrderedIsAgg at h ⊢
          simp only [h, aggOnto_append_single]
  · exact h

theorem runPages_agg (pgs : List (List Line)) :
    (runPages pgs initState).ordered = aggOnto [] (runPages pgs initState).emitted :=
  runPages_pres OrderedIsAgg scanStep_agg pgs initState rfl

theorem scanStep_plain (line : Line) (rest : List Line) (s : PState)
    (hp : PlainLine line) (ht : s.in_totals = false) :
    scanStep line rest s = (rest, { s with buf := s.buf ++ [line] }) := by
  obtain ⟨h1, h2, h3, h4, h5⟩ := hp
  simp [scanStep, h1, h2, h3, h4, h5, ht]

/-- Scanning a run of plain lines just appends them all to the buffer. -/
theorem scanF_plain_append (ls : List Line) : ∀ (f : Nat) (tail : List Line) (s : PState),
    (∀ l ∈ ls, PlainLine l) → s.in_totals = false →
    scanF (ls.length + f) (ls ++ tail) s = scanF f tail { s with buf := s.buf ++ ls } := by
  induction ls with
  | nil =>
    intro f tail s _ _
    simp
  | cons a ls ih =>
    intro f tail s hp ht
    have hstep := scanStep_plain a (ls ++ tail) s (hp a (List.mem_cons_self a ls)) ht
    have hfuel : (a :: ls).length + f = (ls.length + f) + 1 := by simp; omega
    rw [hfuel, List.cons_append, scanF_cons, hstep]
    dsimp only
    rw [ih f tail { s with buf := s.buf ++ [a] } (fun l hl => hp l (List.mem_cons_of_mem a hl)) ht]
    congr 1
    simp

/-- A money line whose lookahead window resolves no anchor triple is
folded back into the buffer and the scan advances by exactly one line. -/
theorem scanStep_money_unresolved (line : Line) (rest : List Line) (s : PState)
    (h1 : is_noise line = false) (h2 : is_header_token line = false)
    (h3 : is_project_total_only line = false) (h4 : is_totals_block line = false)
    (hm : isMoneyLine line = true) (ht : s.in_totals = false)
    (hwin : qtyFind (rest.take 9) = none ∨
      ∃ qi qv, qtyFind (rest.take 9) = some (qi, qv) ∧ sumFind (rest.take 9) qi = none) :
    scanStep line rest s = (rest, { s with buf := s.buf ++ [line] }) := by
  rcases hwin with hq | ⟨qi, qv, hq, hs⟩
  · simp [scanStep, h1, h2, h3, h4, hm, ht, hq]
  · simp [scanStep, h1, h2, h3, h4, hm, ht, hq, hs]

/-! Every emitted quantity is within the plausible bound. -/

theorem scanStep_bounded (line : Line) (rest : List Line) (s : PState)
    (h : EmittedBounded s) : EmittedBounded (scanStep line rest s).2 := by
  unfold scanStep
  split
  · exact h
  split
  · exact h
  split
  · exact h
  split
  · split
    · exact h
    · split
      · exact h
      · dsimp only
        split
        · exact h
        · rename_i x1 qi qv hqty x2 si hsum hname
          intro e he
          rcases List.mem_append.mp he with hold | hnew
          · exact h e hold
          · rcases List.mem_singleton.mp hnew with rfl
            exact qtyFind_bounds _ _ _ hqty
  · exact h

/-! Name finalization drops a junk-classified tail. -/

theorem dropWhile_append_all (p : Line → Bool) (xs ys : List Line)
    (h : ∀ x ∈ xs, p x = true) : (xs ++ ys).dropWhile p = ys.dropWhile p := by
  induction xs with
  | nil => rfl
  | cons a l ih =>
    rw [List.cons_append, List.dropWhile_cons, if_pos (by simpa using h a (List.mem_cons_self a l))]
    exact ih (fun x hx => h x (List.mem_cons_of_mem a hx))

theorem clean_name_append_junk (buf trail : List Line)
    (ht : ∀ l ∈ trail, bufTailJunk l = true) :
    clean_name_from_buffer (buf ++ trail) = clean_name_from_buffer buf := by
  unfold clean_name_from_buffer
  dsimp only
  rw [List.filter_append, List.reverse_append,
    dropWhile_append_all bufTailJunk _ _
      (fun x hx => ht x (List.mem_of_mem_filter (List.mem_reverse.mp hx)))]

/-! Corollaries at the document level. -/

theorem parse_agg (pages : List (List Line)) :
    parse_items pages = aggOnto [] (emitsOf pages) :=
  runPages_agg pages

theorem parse_nodup (pages : List (List Line)) :
    ((parse_items pages).map Prod.fst).Nodup := by
  rw [parse_agg]
  exact aggOnto_nodup _ [] (by simp)

theorem parse_keys_dedup (pages : List (List Line)) :
    (parse_items pages).map Prod.fst = dedupAux [] ((emitsOf pages).map Prod.fst) := by
  rw [parse_agg, aggOnto_keys]
  simp

theorem parse_mem_sum (pages : List (List Line)) (p : Line × Nat)
    (hp : p ∈ parse_items pages) : p.2 = sumQty (emitsOf pages) p.1 := by
  have hp' : p ∈ aggOnto [] (emitsOf pages) := by rwa [parse_agg] at hp
  have hnd : ((aggOnto [] (emitsOf pages)).map Prod.fst).Nodup :=
    aggOnto_nodup _ [] (by simp)
  have hlk := lookupQ_of_mem _ p.1 p.2 (by rw [Prod.mk.eta]; exact hp') hnd
  have hg := aggOnto_getQ (emitsOf pages) [] p.1
  simp only [getQ, hlk, Option.getD_some, lookupQ] at hg
  simpa using hg

theorem parse_keys_emitted (pages : List (List Line)) (k : Line)
    (hk : k ∈ (parse_items pages).map Prod.fst) :
    k ∈ (emitsOf pages).map Prod.fst := by
  rw [parse_keys_dedup] at hk
  exact dedupAux_subset _ _ _ hk

theorem emits_bounded (pages : List (List Line)) :
    ∀ e ∈ emitsOf pages, 1 ≤ e.2 ∧ e.2 ≤ 500 :=
  runPages_pres EmittedBounded scanStep_bounded pages initState
    (fun e he => by simp [initState] at he)

theorem sumQty_pos (es : List (Line × Nat)) (k : Line) :
    k ∈ es.map Prod.fst → (∀ e ∈ es, 1 ≤ e.2) → 1 ≤ sumQty es k := by
  induction es with
  | nil => intro h _; simp at h
  | cons e es ih =>
    intro hmem hb
    simp only [sumQty]
    rw [List.map_cons] at hmem
    rcases List.mem_cons.mp hmem with heq | htail
    · have h1 := hb e (List.mem_cons_self e es)
      rw [if_pos heq.symm]
      omega
    · have h2 := ih htail (fun x hx => hb x (List.mem_cons_of_mem e hx))
      by_cases he : e.1 = k
      · rw [if_pos he]; omega
      · rw [if_neg he]; omega

/-- The anchor-triple step: at a money line followed directly by an
in-range integer line and a closing money/currency line at the end of the
page, the scan emits one record from the buffer and consumes the page. -/
theorem scanStep_anchor_triple (m q cl : Line) (s : PState)
    (hm1 : is_noise m = false) (hm2 : is_header_token m = false)
    (hm3 : is_project_total_only m = false) (hm4 : is_totals_block m = false)
    (hm : isMoneyLine m = true) (ht : s.in_totals = false)
    (hq : isIntLine q = true) (hq1 : 1 ≤ natVal q) (hq2 : natVal q ≤ 500)
    (hcl : isMoneyLine cl = true ∨ anyRub cl = true)
    (hname : clean_name_from_buffer s.buf ≠ []) :
    scanStep m [q, cl] s =
      ([], { s with buf := [],
                    ordered := addQty s.ordered (clean_name_from_buffer s.buf) (natVal q),
                    emitted := s.emitted ++ [(clean_name_from_buffer s.buf, natVal q)] }) := by
  have hqf : qtyFind [q, cl] = some (0, natVal q) := by
    simp [qtyFind, hq, hq1, hq2]
  have hsf : sumFind [q, cl] 0 = some 1 := by
    rcases hcl with hcl | hcl <;> simp [sumFind, sumScan, hcl]
  simp [scanStep, hm1, hm2, hm3, hm4, hm, ht, hqf, hsf, hname]

/-! Claim theorems. -/

/-- C1: for every parsed document, `parse_items` lists each name key
exactly once, in the order of the keys' first emissions (the output key
sequence is the first-occurrence deduplication of the emitted key
sequence), and each output quantity equals the sum of all quantities
emitted for that key. -/
theorem parse_items_first_occurrence_sum (pages : List (List Line)) :
    ((parse_items pages).map Prod.fst).Nodup ∧
    (parse_items pages).map Prod.fst = dedupAux [] ((emitsOf pages).map Prod.fst) ∧
    ∀ p ∈ parse_items pages, p.2 = sumQty (emitsOf pages) p.1 :=
  ⟨parse_nodup pages, parse_keys_dedup pages, fun p hp => parse_mem_sum pages p hp⟩

/-- C1 witness: the repeated Widget Model A block (quantity 3 per page)
aggregates to the single record (Widget Model A, 6), whose quantity is
the sum of the two emissions. -/
theorem parse_items_first_occurrence_sum_witness :
    parse_items widgetPages = [("Widget Model A".data, 6)] ∧
    ("Widget Model A".data, 6) ∈ parse_items widgetPages ∧
    6 = sumQty (emitsOf widgetPages) "Widget Model A".data :=
  ⟨by decide, by decide,
   (parse_items_first_occurrence_sum widgetPages).2.2 ("Widget Model A".data, 6) (by decide)⟩

/-- C2 counterexample: on a document for which the anchor parser yields
zero records, the `/extract` route raises HTTP 422 instead of invoking
any fallback parser (main.py contains no coordinate fallback parser). -/
theorem anchor_empty_raises_cex :
    parse_items [["hello".data]] = [] ∧
    extract_route [["hello".data]] [] = Except.error 422 :=
  ⟨by decide, rfl⟩

/-- C2 amended: whenever the anchor parser yields zero records for the
whole document, the `/extract` route raises HTTP 422. -/
theorem anchor_empty_raises_422 (pages : List (List Line)) (amap : List (Line × Line))
    (h : parse_items pages = []) : extract_route pages amap = Except.error 422 := by
  simp [extract_route, h]

/-- C2 amended witness. -/
theorem anchor_empty_raises_422_witness :
    extract_route [["world".data]] [] = Except.error 422 :=
  anchor_empty_raises_422 [["world".data]] [] (by decide)

/-- C3 counterexample: on the spec's literal five input lines (dimension
unit written `mm` in Latin letters), the parser produces one record of
quantity 3, but the name retains the dimension line, because every
dimension regex of main.py matches only the Cyrillic unit `мм`. -/
theorem latin_mm_not_stripped_cex :
    parse_items c3LatinDoc = [("Widget Model A 24x10x5 mm".data, 3)] ∧
    parse_items c3LatinDoc ≠ [("Widget Model A".data, 3)] :=
  ⟨by decide, by decide⟩

/-- C3 amended: with the Cyrillic dimension unit `мм`, the five-line
scenario yields exactly the single record (Widget Model A, 3), the
dimension line stripped. -/
theorem cyrillic_mm_scenario :
    parse_items c3CyrillicDoc = [("Widget Model A".data, 3)] := by decide

/-- C4: a record whose name lines are split across two pages, with the
anchor triple (money, in-range integer, closing money/currency line) on
the second page, still yields exactly one record with the full name
assembled from both pages' lines; the result is the same as when the
whole block sits on a single page. -/
theorem page_split_single_record (ns1 ns2 : List Line) (m q cl : Line)
    (hplain : ∀ l ∈ ns1 ++ ns2, PlainLine l)
    (hm1 : is_noise m = false) (hm2 : is_header_token m = false)
    (hm3 : is_project_total_only m = false) (hm4 : is_totals_block m = false)
    (hm : isMoneyLine m = true)
    (hq : isIntLine q = true) (hq1 : 1 ≤ natVal q) (hq2 : natVal q ≤ 500)
    (hcl : isMoneyLine cl = true ∨ anyRub cl = true)
    (hname : clean_name_from_buffer (ns1 ++ ns2) ≠ []) :
    parse_items [ns1, ns2 ++ [m, q, cl]] =
      [(clean_name_from_buffer (ns1 ++ ns2), natVal q)] ∧
    parse_items [ns1 ++ ns2 ++ [m, q, cl]] =
      [(clean_name_from_buffer (ns1 ++ ns2), natVal q)] := by
  have hp1 : ∀ l ∈ ns1, PlainLine l :=
    fun l hl => hplain l (List.mem_append.mpr (Or.inl hl))
  have hp2 : ∀ l ∈ ns2, PlainLine l :=
    fun l hl => hplain l (List.mem_append.mpr (Or.inr hl))
  have hpage1 : scanPage ns1 initState = { initState with buf := ns1 } := by
    have h := scanF_plain_append ns1 0 [] initState hp1 rfl
    simpa [scanPage, scanF_nil] using h
  have hanchor : ∀ s : PState, s.in_totals = false → s.buf = ns1 ++ ns2 →
      scanF 3 [m, q, cl] s =
        { s with buf := [],
                 ordered := addQty s.ordered (clean_name_from_buffer (ns1 ++ ns2)) (natVal q),
                 emitted := s.emitted ++ [(clean_name_from_buffer (ns1 ++ ns2), natVal q)] } := by
    intro s hst hsb
    have hstep := scanStep_anchor_triple m q cl s hm1 hm2 hm3 hm4 hm hst hq hq1 hq2 hcl
      (by rw [hsb]; exact hname)
    rw [show (3 : Nat) = 2 + 1 from rfl, scanF_cons, hstep]
    dsimp only
    rw [scanF_nil, hsb]
  constructor
  · show (runPages [ns1, ns2 ++ [m, q, cl]] initState).ordered = _
    have : runPages [ns1, ns2 ++ [m, q, cl]] initState =
        scanPage (ns2 ++ [m, q, cl]) (scanPage ns1 initState) := rfl
    rw [this, hpage1]
    have hlen : (ns2 ++ [m, q, cl]).length = ns2.length + 3 := by
      simp only [List.length_append, List.length_cons, List.length_nil]
    unfold scanPage
    rw [hlen, scanF_plain_append ns2 3 [m, q, cl] { initState with buf := ns1 } hp2 rfl]
    rw [hanchor _ rfl (by simp [initState])]
    simp [initState, addQty]
  · show (runPages [ns1 ++ ns2 ++ [m, q, cl]] initState).ordered = _
    have hrun : runPages [ns1 ++ ns2 ++ [m, q, cl]] initState =
        scanPage (ns1 ++ ns2 ++ [m, q, cl]) initState := rfl
    rw [hrun]
    unfold scanPage
    have hlen : (ns1 ++ ns2 ++ [m, q, cl]).length = (ns1 ++ ns2).length + 3 := by
      simp only [List.length_append, List.length_cons, List.length_nil]
    rw [hlen, scanF_plain_append (ns1 ++ ns2) 3 [m, q, cl] initState hplain rfl]
    rw [hanchor _ rfl (by simp [initState])]
    simp [initState, addQty]

/-- C4 witness: the name lines "Widget Model" (page 1) and "A" (page 2)
followed by the anchor triple on page 2 yield the single record with the
full reconstructed name. -/
theorem page_split_single_record_witness :
    parse_items [["Widget Model".data], ["A".data] ++ ["25.00 ₽".data, "3".data, "75 ₽".data]] =
      [(clean_name_from_buffer (["Widget Model".data] ++ ["A".data]), natVal "3".data)] ∧
    clean_name_from_buffer (["Widget Model".data] ++ ["A".data]) = "Widget Model A".data :=
  ⟨(page_split_single_record ["Widget Model".data] ["A".data]
      "25.00 ₽".data "3".data "75 ₽".data
      (by decide) (by decide) (by decide) (by decide) (by decide) (by decide)
      (by decide) (by decide) (by decide) (by decide) (by decide)).1,
   by decide⟩

/-- C5: once the scan reaches a bare-total line or a totals-start line
(one that is not noise or a header token, so it is actually processed by
the totals branch), the remaining lines of the page and every later page
of the document change neither the ordered output map nor the emission
trace: no further record is ever accepted. -/
theorem totals_terminate_extraction (t : Line) (rest : List Line) (f : Nat)
    (pages : List (List Line)) (s : PState)
    (h1 : is_noise t = false) (h2 : is_header_token t = false)
    (h3 : is_project_total_only t = true ∨ is_totals_block t = true) :
    (runPages pages (scanF (f + 1) (t :: rest) s)).ordered = s.ordered ∧
    (runPages pages (scanF (f + 1) (t :: rest) s)).emitted = s.emitted := by
  have hstep : scanStep t rest s = (rest, { s with in_totals := true, buf := [] }) := by
    rcases h3 with h3 | h3 <;> simp [scanStep, h1, h2, h3]
  have h4 := scanF_totals f rest { s with in_totals := true, buf := [] } rfl
  have h5 := runPages_totals pages (scanF f rest { s with in_totals := true, buf := [] }) h4.2.2
  rw [scanF_cons, hstep]
  exact ⟨h5.1.trans h4.1, h5.2.1.trans h4.2.1⟩

/-- C5 witness: after the bare total "63376 ₽", lines matching the anchor
shape on the same page and on a whole later page produce no records. -/
theorem totals_terminate_extraction_witness :
    (is_project_total_only "63376 ₽".data = true ∨ is_totals_block "63376 ₽".data = true) ∧
    (runPages [["Другое".data, "10,00 ₽".data, "2".data, "20 ₽".data]]
      (scanF 4 ("63376 ₽".data :: ["Игрушка".data, "10,00 ₽".data, "2".data]) initState)).ordered
      = initState.ordered :=
  ⟨Or.inl (by decide),
   (totals_terminate_extraction "63376 ₽".data ["Игрушка".data, "10,00 ₽".data, "2".data] 3
      [["Другое".data, "10,00 ₽".data, "2".data, "20 ₽".data]] initState
      (by decide) (by decide) (Or.inl (by decide))).1⟩

/-- C6 counterexample: an output quantity of `parse_items` can exceed 500:
a document emitting (A, 300) twice aggregates to the single output record
(A, 600), so not every quantity in the parser's output lies in [1, 500]. -/
theorem aggregated_qty_exceeds_bound_cex :
    parse_items doubledQtyDoc = [("A".data, 600)] ∧ ¬(600 ≤ 500) :=
  ⟨by decide, by decide⟩

/-- C6 amended: an integer line with value outside [1, 500] is never
selected as the quantity of an emitted record — every emitted quantity
lies in [1, 500] — and every aggregated output quantity, being a
non-empty sum of emitted quantities, is at least 1 but may exceed 500. -/
theorem emitted_qty_bounded (pages : List (List Line)) :
    (∀ e ∈ emitsOf pages, 1 ≤ e.2 ∧ e.2 ≤ 500) ∧
    (∀ p ∈ parse_items pages, 1 ≤ p.2) := by
  refine ⟨emits_bounded pages, ?_⟩
  intro p hp
  rw [parse_mem_sum pages p hp]
  exact sumQty_pos (emitsOf pages) p.1
    (parse_keys_emitted pages p.1 (List.mem_map.mpr ⟨p, hp, rfl⟩))
    (fun e he => (emits_bounded pages e he).1)

/-- C6 amended witness: the quantity 3 emitted for the Widget record is
within [1, 500]. -/
theorem emitted_qty_bounded_witness :
    ("Widget Model A".data, 3) ∈ emitsOf c3CyrillicDoc ∧ (1 ≤ 3 ∧ 3 ≤ 500) :=
  ⟨by decide, (emitted_qty_bounded c3CyrillicDoc).1 ("Widget Model A".data, 3) (by decide)⟩

/-- C7: a name buffer ending in a contiguous run of dimension/weight
classified lines (or money/integer lines) finalizes to exactly the name
of the buffer without that trailing run: the trailing lines' text never
enters the finalized name. -/
theorem clean_name_drops_trailing_run (buf trail : List Line)
    (ht : ∀ l ∈ trail, looks_like_dim_or_weight l = true ∨ looks_like_money_or_qty l = true) :
    clean_name_from_buffer (buf ++ trail) = clean_name_from_buffer buf :=
  clean_name_append_junk buf trail (fun l hl => by
    rcases ht l hl with h | h <;> simp [bufTailJunk, h])

/-- C7 witness: a dimension line, an integer line and a money line at the
tail of the buffer are all stripped from the finalized name. -/
theorem clean_name_drops_trailing_run_witness :
    clean_name_from_buffer
        (["Widget Model A".data] ++ ["24x10x5 мм".data, "3".data, "75 ₽".data]) =
      clean_name_from_buffer ["Widget Model A".data] ∧
    clean_name_from_buffer ["Widget Model A".data] = "Widget Model A".data :=
  ⟨clean_name_drops_trailing_run ["Widget Model A".data]
      ["24x10x5 мм".data, "3".data, "75 ₽".data] (by decide),
   by decide⟩

/-- C8: a money line whose bounded lookahead window yields no in-range
integer line, or no closing money/currency line after it, is appended to
the name buffer and the scan advances by exactly one line; the previously
buffered lines, the ordered map and the emission trace are untouched (and
the model is a total function, so no error is possible). -/
theorem unresolved_anchor_buffered (f : Nat) (line : Line) (rest : List Line) (s : PState)
    (h1 : is_noise line = false) (h2 : is_header_token line = false)
    (h3 : is_project_total_only line = false) (h4 : is_totals_block line = false)
    (hm : isMoneyLine line = true) (ht : s.in_totals = false)
    (hwin : qtyFind (rest.take 9) = none ∨
      ∃ qi qv, qtyFind (rest.take 9) = some (qi, qv) ∧ sumFind (rest.take 9) qi = none) :
    scanStep line rest s = (rest, { s with buf := s.buf ++ [line] }) ∧
    scanF (f + 1) (line :: rest) s = scanF f rest { s with buf := s.buf ++ [line] } := by
  have h := scanStep_money_unresolved line rest s h1 h2 h3 h4 hm ht hwin
  exact ⟨h, by rw [scanF_cons, h]⟩

/-- C8 witness: a decorative price line followed by plain text only is
folded into the buffer after the buffered name line. -/
theorem unresolved_anchor_buffered_witness :
    scanStep "25,00 ₽".data ["Текст".data] { initState with buf := ["Имя".data] } =
      (["Текст".data], { initState with buf := ["Имя".data] ++ ["25,00 ₽".data] }) :=
  (unresolved_anchor_buffered 0 "25,00 ₽".data ["Текст".data]
    { initState with buf := ["Имя".data] }
    (by decide) (by decide) (by decide) (by decide) (by decide) rfl
    (Or.inl (by decide))).1

/-- C9: when the external catalog source is missing, unreadable or broken,
`load_article_map` returns the empty map (with a status string, raising
nothing), and extraction of a document with records completes normally:
the CSV rows keep exactly the parsed (name, quantity) records, with every
article field empty. -/
theorem catalog_failure_graceful (pages : List (List Line)) (src : XlsxSrc)
    (hfail : (load_article_map src).2 ≠ "ok".data)
    (hrows : parse_items pages ≠ []) :
    (load_article_map src).1 = [] ∧
    extract_route pages (load_article_map src).1 =
      Except.ok ((parse_items pages).map (fun nq => (([] : Line), nq.1, nq.2, 2))) := by
  have hmap : (load_article_map src).1 = [] := by
    cases src with
    | noOpenpyxl => rfl
    | fileNotFound p => rfl
    | cannotOpen e => rfl
    | sheet header rows => exact absurd rfl hfail
  refine ⟨hmap, ?_⟩
  rw [hmap]
  simp [extract_route, hrows, csv_rows, lookupA]

/-- C9 witness: with the catalog file absent, the Widget document still
extracts, producing its record with an empty article. -/
theorem catalog_failure_graceful_witness :
    (load_article_map (XlsxSrc.fileNotFound "Art.xlsx".data)).1 = [] ∧
    extract_route c3CyrillicDoc (load_article_map (XlsxSrc.fileNotFound "Art.xlsx".data)).1 =
      Except.ok ((parse_items c3CyrillicDoc).map (fun nq => (([] : Line), nq.1, nq.2, 2))) :=
  catalog_failure_graceful c3CyrillicDoc (XlsxSrc.fileNotFound "Art.xlsx".data)
    (by decide) (by decide)

/-- C10: the scan loop terminates on every finite page: one fuel unit per
line suffices (each iteration strictly advances the scan), every step
consumes at least one line, and the closing anchor index returned by the
window search lies strictly beyond the quantity index, hence at least two
positions past the opening money line. -/
theorem scan_terminates :
    (∀ (f : Nat) (l : List Line) (s : PState), l.length ≤ f → scanF f l s = scanF l.length l s) ∧
    (∀ (line : Line) (rest : List Line) (s : PState),
      ((scanStep line rest s).1).length ≤ rest.length) ∧
    (∀ (w : List Line) (qi si : Nat), sumFind w qi = some si → qi + 1 ≤ si) :=
  ⟨scanF_stable, scanStep_fst_length, sumFind_gt⟩

/-- C10 witness: extra fuel changes nothing on a concrete page, and the
closing-anchor index of a concrete window is past the quantity index. -/
theorem scan_terminates_witness :
    scanF 10 ["Имя".data, "25,00 ₽".data] initState =
      scanF 2 ["Имя".data, "25,00 ₽".data] initState ∧
    (sumFind ["3".data, "75 ₽".data] 0 = some 1 ∧ 0 + 1 ≤ 1) :=
  ⟨scan_terminates.1 10 ["Имя".data, "25,00 ₽".data] initState (by decide),
   ⟨by decide, scan_terminates.2.2 ["3".data, "75 ₽".data] 0 1 (by decide)⟩⟩

end PdfCsv
